import Mathlib

/-!
Verification of the cloze-anything editor extension.

The development shallowly embeds the source module `cloze_anything/__init__.py`:
strings are `List Char`, a note's fields are a total map from field ordinal to
content, a model's field list is a `List Fld`, and each Python function is
translated to a Lean function with the same structure.
-/

namespace ClozeAnything

/-- Parse a run of ASCII digit characters as a natural number, exactly as
Python's `int` does on a digit string (most significant digit first). -/
def digitsToNat (ds : List Char) : Nat :=
  ds.foldl (fun acc c => acc * 10 + (c.toNat - 48)) 0

/-- Greedy `\d+` of the scanner regex: split off the maximal leading digit run. -/
def takeDigits : List Char → List Char × List Char
  | [] => ([], [])
  | c :: rest =>
    if c.isDigit then
      let p := takeDigits rest
      (c :: p.1, p.2)
    else ([], c :: rest)

/-- The non-greedy `.+?\)\)` tail of the scanner regex: consume at least one
non-newline character, stopping at the earliest following `))`; returns the
remainder after the closing parens, or `none` when no such span exists. -/
def matchBody : List Char → Option (List Char)
  | [] => none
  | c :: rest =>
    if c = '\n' then none
    else if rest.take 2 = [')', ')'] then some (rest.drop 2)
    else matchBody rest

/-- One attempt of the regex `\(\(c(\d+)::.+?\)\)` anchored at the head of the
list: the literal `((c`, then a nonempty greedy digit run, then `::`, then the
non-greedy body; on success returns the captured identifier and the remainder
of the input after the match. -/
def tryMatch (l : List Char) : Option (Nat × List Char) :=
  if l.take 3 = ['(', '(', 'c'] then
    let p := takeDigits (l.drop 3)
    if p.1 ≠ [] ∧ p.2.take 2 = [':', ':'] then
      match matchBody (p.2.drop 2) with
      | some tail => some (digitsToNat p.1, tail)
      | none => none
    else none
  else none

/-- Fueled driver of `re.findall`: attempt a match at every position, emitting
captures left to right and resuming after each (non-overlapping) match. -/
def findAllF : Nat → List Char → List Nat
  | 0, _ => []
  | _ + 1, [] => []
  | fuel + 1, c :: rest =>
    match tryMatch (c :: rest) with
    | some p => p.1 :: findAllF fuel p.2
    | none => findAllF fuel rest

/-- All identifiers captured by `re.findall` over the input, in order.  The
fuel `l.length` suffices because every step strictly shortens the input. -/
def findAll (l : List Char) : List Nat :=
  findAllF l.length l

/-- `get_cloze_nums` (source lines 24-40): search content for cloze references
of shape `((cN::payload))` and return the set of identifiers found. -/
def get_cloze_nums (content : List Char) : Finset Nat :=
  (findAll content).toFinset

/-- A field descriptor of a note model: the entries of `model["flds"]` carry a
name and a stable ordinal. -/
structure Fld where
  name : List Char
  ord : Nat
  deriving DecidableEq

/-- Strip an expected leading segment from a list, returning the remainder:
`stripBase b l = some r` exactly when `l = b ++ r`. -/
def stripBase : List Char → List Char → Option (List Char)
  | [], nm => some nm
  | _ :: _, [] => none
  | b :: bs, n :: nm => if n = b then stripBase bs nm else none

/-- The anchored field-name regex `^<base>(\d+)$` (source line 69): a field
name matches when it is exactly the base name followed by a nonempty digit
run, which is captured and parsed as the auxiliary identifier. -/
def matchAux (base nm : List Char) : Option Nat :=
  match stripBase base nm with
  | some ds => if ds ≠ [] ∧ ∀ c ∈ ds, c.isDigit then some (digitsToNat ds) else none
  | none => none

/-- The marker-field suffix convention `"Cloze"` as a character list. -/
def clozeChars : List Char := "Cloze".toList

/-- Python's `field_name.endswith("Cloze")`. -/
def hasClozeEnd (nm : List Char) : Bool := clozeChars.isSuffixOf nm

/-- Decimal digit character for a value below ten. -/
def digitChar (d : Nat) : Char := Char.ofNat (48 + d)

/-- Fueled most-significant-first decimal printer. -/
def natDigitsAux : Nat → Nat → List Char
  | 0, _ => []
  | fuel + 1, n =>
    if n < 10 then [digitChar n]
    else natDigitsAux fuel (n / 10) ++ [digitChar (n % 10)]

/-- Python's `str(n)` for a natural number: its decimal digit string. -/
def natDigits (n : Nat) : List Char := natDigitsAux (n + 1) n

/-- Python's `str.strip()`: remove leading and trailing whitespace. -/
def trimChars (l : List Char) : List Char :=
  ((l.dropWhile Char.isWhitespace).reverse.dropWhile Char.isWhitespace).reverse

/-- The interactive inactive placeholder `"<br>"` (source line 76). -/
def brChars : List Char := "<br>".toList

/-- Modelled from the spec: the host editor's `mungeHTML` normalization, which
is not part of this repository.  The spec calls the interactive line-break
placeholder semantically inactive, so the host maps it to the empty string and
leaves other values unchanged. -/
def mungeHTML (l : List Char) : List Char := if l = brChars then [] else l

/-- Desired auxiliary value on the interactive path (source line 76):
`"1"` when the identifier is referenced, the placeholder otherwise. -/
def ucfContent (n : Nat) (cloze_nums : Finset Nat) : List Char :=
  if n ∈ cloze_nums then ['1'] else brChars

/-- One step of the field loop of `update_cloze_fields` (source lines 71-83).
The accumulator carries the UI commands emitted so far (modelled as
ordinal/value pairs), the identifiers found so far, and the note contents.
A matching field is recorded in the found set, and is rewritten (with a UI
command) only when its current stripped value is `"1"` or empty. -/
def ucfStep (cloze_nums : Finset Nat) (base : List Char)
    (acc : List (Nat × List Char) × Finset Nat × (Nat → List Char)) (f : Fld) :
    List (Nat × List Char) × Finset Nat × (Nat → List Char) :=
  match matchAux base f.name with
  | some n =>
    if trimChars (acc.2.2 f.ord) = ['1'] ∨ trimChars (acc.2.2 f.ord) = [] then
      (acc.1 ++ [(f.ord, ucfContent n cloze_nums)], insert n acc.2.1,
        Function.update acc.2.2 f.ord (mungeHTML (ucfContent n cloze_nums)))
    else (acc.1, insert n acc.2.1, acc.2.2)
  | none => acc

/-- `update_cloze_fields` (source lines 43-85): walk the model's fields, and
for every auxiliary field of the given base name reconcile its value with the
identifier set, in safe mode.  Returns the UI commands, the identifiers for
which an auxiliary field exists, and the updated note. -/
def update_cloze_fields (note : Nat → List Char) (cloze_nums : Finset Nat)
    (cloze_field_name : List Char) (flds : List Fld) :
    List (Nat × List Char) × Finset Nat × (Nat → List Char) :=
  flds.foldl (ucfStep cloze_nums cloze_field_name) ([], ∅, note)

/-- The proposed identifier of the insert-marker entry point (source lines
102-108): the maximum existing identifier plus one, or the maximum itself when
the Alt-modifier reuse signal is present, or `1` when no marker exists yet. -/
def next_cloze_num (cloze_nums : Finset Nat) (reuse : Bool) : Nat :=
  if h : cloze_nums.Nonempty then
    if reuse then cloze_nums.max' h else cloze_nums.max' h + 1
  else 1

/-- The text produced by the editor wrap command `wrap('((cN::', '))')`
(source lines 110-112) around a selected payload. -/
def wrapMarker (n : Nat) (payload : List Char) : List Char :=
  '(' :: '(' :: 'c' :: (natDigits n ++ ':' :: ':' :: (payload ++ [')', ')']))

/-- The missing-field report of `onCloze` (source lines 121-127): names of the
auxiliary fields for identifiers scanned but not found, sorted ascending. -/
def missing_field_names (cloze_nums found : Finset Nat) (base : List Char) :
    List (List Char) :=
  ((cloze_nums \ found).sort (· ≤ ·)).map fun n => base ++ natDigits n

/-- Desired auxiliary value on the batch path (source line 261): `"1"` when
the identifier is referenced, a true empty string otherwise. -/
def cmContent (n : Nat) (cloze_nums : Finset Nat) : List Char :=
  if n ∈ cloze_nums then ['1'] else []

/-- One step of the inner field loop of `create_missing` (source lines
257-264): a field matching the base-plus-digits convention is forced to its
desired value, and the updated flag is raised when the value actually changed. -/
def cmInnerStep (cloze_nums : Finset Nat) (base : List Char)
    (acc : (Nat → List Char) × Bool) (f : Fld) : (Nat → List Char) × Bool :=
  match matchAux base f.name with
  | some n =>
    if acc.1 f.ord = cmContent n cloze_nums then acc
    else (Function.update acc.1 f.ord (cmContent n cloze_nums), true)
  | none => acc

/-- The force-mode reconciliation pass of `create_missing` for one base field:
walk all fields of the model and force every matching auxiliary field. -/
def cmReconcile (note : Nat → List Char) (cloze_nums : Finset Nat)
    (base : List Char) (flds : List Fld) : (Nat → List Char) × Bool :=
  flds.foldl (cmInnerStep cloze_nums base) (note, false)

/-- One step of the outer field loop of `create_missing` (source lines
249-267): every field ending in the suffix convention has its content scanned
and its auxiliary fields forced; a flush (counted) happens when anything
changed.  The accumulator carries the note and the running update count. -/
def cmOuterStep (flds : List Fld) (acc : (Nat → List Char) × Nat) (f : Fld) :
    (Nat → List Char) × Nat :=
  if hasClozeEnd f.name then
    let r := cmReconcile acc.1 (get_cloze_nums (acc.1 f.ord)) f.name flds
    (r.1, acc.2 + if r.2 then 1 else 0)
  else acc

/-- `create_missing` restricted to a single note (source lines 246-267):
returns the reconciled note and the number of flush events it contributes to
`update_count`. -/
def create_missing_note (note : Nat → List Char) (flds : List Fld) :
    (Nat → List Char) × Nat :=
  flds.foldl (cmOuterStep flds) (note, 0)

/-- The `update_count` reported by `create_missing` over a selection of notes,
each paired with its model's field list (source lines 239-270). -/
def create_missing_batch (notes : List ((Nat → List Char) × List Fld)) : Nat :=
  (notes.map fun p => (create_missing_note p.1 p.2).2).sum

/-- The number of records a `create_missing` run actually flushes, i.e. the
records with at least one changed field. -/
def changed_note_count (notes : List ((Nat → List Char) × List Fld)) : Nat :=
  notes.countP fun p => (create_missing_note p.1 p.2).2 != 0

/-- First ordinal of a field with the given exact name, as the generator
expressions of `auto_cloze` compute it (source lines 207-210). -/
def findOrd (flds : List Fld) (nm : List Char) : Option Nat :=
  (flds.find? fun g => g.name == nm).map Fld.ord

/-- One step of the field loop of `auto_cloze` (source lines 201-218): an
empty Cloze-suffixed field is synthesized from its unsuffixed source field
when that field exists and the first auxiliary slot exists and is empty. -/
def acStep (flds : List Fld) (acc : (Nat → List Char) × Nat) (f : Fld) :
    (Nat → List Char) × Nat :=
  if hasClozeEnd f.name ∧ trimChars (acc.1 f.ord) = [] then
    match findOrd flds (f.name.take (f.name.length - 5)),
        findOrd flds (f.name ++ ['1']) with
    | some srcOrd, some aux1Ord =>
      if trimChars (acc.1 aux1Ord) = [] then
        (Function.update
          (Function.update acc.1 f.ord (wrapMarker 1 (acc.1 srcOrd)))
          aux1Ord ['1'], acc.2 + 1)
      else acc
    | _, _ => acc
  else acc

/-- `auto_cloze` restricted to a single note (source lines 198-218): returns
the updated note and its contribution to `update_count`. -/
def auto_cloze_note (note : Nat → List Char) (flds : List Fld) :
    (Nat → List Char) × Nat :=
  flds.foldl (acStep flds) (note, 0)

/-- Python's `cmd.split(":", maxsplit)`. -/
def splitColon : Nat → List Char → List (List Char)
  | 0, l => [l]
  | maxsplit + 1, l =>
    match l.dropWhile (· ≠ ':') with
    | [] => [l]
    | _ :: tail => l.takeWhile (· ≠ ':') :: splitColon maxsplit tail

/-- Python's `str.startswith` for character lists. -/
def startsWithChars (pre l : List Char) : Bool := (stripBase pre l).isSome

/-- Python's `int()` on the event tokens, modelled for ASCII digit strings
with an optional leading minus sign; anything else raises, i.e. is `none`. -/
def parseIntChars : List Char → Option Int
  | '-' :: ds =>
    if ds ≠ [] ∧ ∀ c ∈ ds, c.isDigit then some (-(digitsToNat ds : Int)) else none
  | ds =>
    if ds ≠ [] ∧ ∀ c ∈ ds, c.isDigit then some ((digitsToNat ds : Int)) else none

/-- Python list indexing `flds[i]`, including negative indices; an index out
of range raises, i.e. is an error. -/
def pyGet (flds : List Fld) (i : Int) : Except Unit Fld :=
  let j : Int := if i < 0 then i + flds.length else i
  if h : 0 ≤ j ∧ j.toNat < flds.length then Except.ok (flds.get ⟨j.toNat, h.2⟩)
  else Except.error ()

/-- The fallible body of the `onBridgeCmd` wrapper (source lines 159-176): the
code inside the `try` block.  An `error` value stands for any exception the
Python code would raise there (unpacking a short split, `int()` on a bad
token, list indexing out of range); a skipped event is a successful no-op. -/
def bridge_body (hasNote : Bool) (noteId : Int) (note : Nat → List Char)
    (flds : List Fld) (cmd : List Char) :
    Except Unit (List (Nat × List Char) × (Nat → List Char)) :=
  if hasNote ∧ (startsWithChars "blur:".toList cmd ∨ startsWithChars "key:".toList cmd) then
    match splitColon 3 cmd with
    | [_, fidx, nid, content] =>
      match parseIntChars fidx with
      | none => Except.error ()
      | some idx =>
        match parseIntChars nid with
        | some v =>
          if v ≠ 0 ∧ v = noteId then
            match pyGet flds idx with
            | Except.error _ => Except.error ()
            | Except.ok f =>
              if hasClozeEnd f.name then
                let r := update_cloze_fields note (get_cloze_nums content) f.name flds
                Except.ok (r.1, r.2.2)
              else Except.ok ([], note)
          else Except.ok ([], note)
        | none => Except.ok ([], note)
    | _ => Except.error ()
  else Except.ok ([], note)

/-- The whole `onBridgeCmd` wrapper (source lines 149-181): the body runs
under a blanket exception handler that discards any failure, and the host's
original handler is invoked afterwards in every case — the boolean component
records that invocation. -/
def onBridgeCmd_model (hasNote : Bool) (noteId : Int) (note : Nat → List Char)
    (flds : List Fld) (cmd : List Char) :
    (List (Nat × List Char) × (Nat → List Char)) × Bool :=
  (match bridge_body hasNote noteId note flds cmd with
   | Except.ok r => r
   | Except.error _ => ([], note), true)

/-- The reconciliation invariant: every matched auxiliary field holds the value
dictated by its governing marker field's content. -/
def Synced (note : Nat → List Char) (flds : List Fld) : Prop :=
  ∀ g ∈ flds, hasClozeEnd g.name = true →
    ∀ h ∈ flds, ∀ m, matchAux g.name h.name = some m →
      note h.ord = cmContent m (get_cloze_nums (note g.ord))


/-! ### Basic facts about name matching and decimal digits -/

theorem stripBase_eq_some {b l r : List Char} :
    stripBase b l = some r ↔ l = b ++ r := by
  induction b generalizing l with
  | nil => simp [stripBase]
  | cons x xs ih =>
    cases l with
    | nil => simp [stripBase]
    | cons y ys =>
      by_cases hxy : y = x
      · subst hxy
        simp [stripBase, ih]
      · simp [stripBase, hxy, Ne.symm hxy]

theorem matchAux_eq_some {base nm : List Char} {m : Nat} :
    matchAux base nm = some m ↔
      ∃ ds, nm = base ++ ds ∧ ds ≠ [] ∧ (∀ c ∈ ds, c.isDigit) ∧ digitsToNat ds = m := by
  cases hs : stripBase base nm with
  | none =>
    have hred : matchAux base nm = none := by
      simp only [matchAux]
      rw [hs]
    rw [hred]
    simp only [reduceCtorEq, false_iff]
    rintro ⟨ds, hds, -⟩
    have hsome : stripBase base nm = some ds := stripBase_eq_some.mpr hds
    rw [hs] at hsome
    cases hsome
  | some ds =>
    have hred : matchAux base nm =
        if ds ≠ [] ∧ ∀ c ∈ ds, c.isDigit then some (digitsToNat ds) else none := by
      simp only [matchAux]
      rw [hs]
    have hnm : nm = base ++ ds := stripBase_eq_some.mp hs
    rw [hred]
    constructor
    · intro h
      split at h
      · rename_i hcond
        exact ⟨ds, hnm, hcond.1, hcond.2, Option.some.inj h⟩
      · cases h
    · rintro ⟨ds', hds', hne, hdig, hval⟩
      have hdseq : ds = ds' := List.append_cancel_left (hnm ▸ hds')
      subst hdseq
      rw [if_pos ⟨hne, hdig⟩, hval]

theorem digitChar_isDigit {d : Nat} (h : d < 10) : (digitChar d).isDigit = true := by
  interval_cases d <;> decide

theorem digitChar_toNat {d : Nat} (h : d < 10) : (digitChar d).toNat = 48 + d := by
  interval_cases d <;> decide

theorem digitsToNat_concat (ds : List Char) (c : Char) :
    digitsToNat (ds ++ [c]) = digitsToNat ds * 10 + (c.toNat - 48) := by
  simp [digitsToNat, List.foldl_append]

theorem natDigitsAux_spec :
    ∀ fuel n, n < fuel →
      natDigitsAux fuel n ≠ [] ∧ (∀ c ∈ natDigitsAux fuel n, c.isDigit) ∧
        digitsToNat (natDigitsAux fuel n) = n := by
  intro fuel
  induction fuel with
  | zero => omega
  | succ fuel ih =>
    intro n hn
    by_cases h10 : n < 10
    · refine ⟨by simp [natDigitsAux, h10], ?_, ?_⟩
      · intro c hc
        simp [natDigitsAux, h10] at hc
        subst hc
        exact digitChar_isDigit h10
      · simp [natDigitsAux, h10, digitsToNat, digitChar_toNat h10]
    · have hdiv : n / 10 < fuel := by omega
      obtain ⟨hne, hdig, hval⟩ := ih (n / 10) hdiv
      have hmod : n % 10 < 10 := Nat.mod_lt _ (by omega)
      refine ⟨by simp [natDigitsAux, h10], ?_, ?_⟩
      · intro c hc
        simp only [natDigitsAux, h10, if_false, List.mem_append, List.mem_singleton] at hc
        rcases hc with hc | hc
        · exact hdig c hc
        · subst hc
          exact digitChar_isDigit hmod
      · simp only [natDigitsAux, h10, if_false, digitsToNat_concat, hval,
          digitChar_toNat hmod]
        omega

theorem natDigits_ne_nil (n : Nat) : natDigits n ≠ [] :=
  (natDigitsAux_spec (n + 1) n (Nat.lt_succ_self n)).1

theorem natDigits_isDigit (n : Nat) : ∀ c ∈ natDigits n, c.isDigit :=
  (natDigitsAux_spec (n + 1) n (Nat.lt_succ_self n)).2.1

theorem digitsToNat_natDigits (n : Nat) : digitsToNat (natDigits n) = n :=
  (natDigitsAux_spec (n + 1) n (Nat.lt_succ_self n)).2.2

theorem matchAux_canonical (base : List Char) (n : Nat) :
    matchAux base (base ++ natDigits n) = some n :=
  matchAux_eq_some.mpr
    ⟨natDigits n, rfl, natDigits_ne_nil n, natDigits_isDigit n, digitsToNat_natDigits n⟩

theorem hasClozeEnd_iff {nm : List Char} :
    hasClozeEnd nm = true ↔ ∃ p, nm = p ++ clozeChars := by
  rw [hasClozeEnd, List.isSuffixOf_iff_suffix]
  constructor
  · rintro ⟨p, hp⟩
    exact ⟨p, hp.symm⟩
  · rintro ⟨p, hp⟩
    exact ⟨p, hp.symm⟩

theorem hasClozeEnd_getLast {nm : List Char} (h : hasClozeEnd nm = true) :
    nm.getLast? = some 'e' := by
  obtain ⟨p, hp⟩ := hasClozeEnd_iff.mp h
  subst hp
  rw [List.getLast?_append_of_ne_nil p (by decide)]
  decide

theorem matchAux_getLast {base nm : List Char} {m : Nat}
    (h : matchAux base nm = some m) :
    ∃ c, nm.getLast? = some c ∧ c.isDigit = true := by
  obtain ⟨ds, hnm, hne, hdig, -⟩ := matchAux_eq_some.mp h
  subst hnm
  obtain ⟨c, hc⟩ := Option.ne_none_iff_exists'.mp
    (mt List.getLast?_eq_none_iff.mp hne)
  exact ⟨c, by rw [List.getLast?_append_of_ne_nil base hne, hc],
    hdig c (List.mem_of_getLast?_eq_some hc)⟩

/-- A name matched as an auxiliary field ends in a digit, while a name obeying
the marker-field convention ends in the letter of the suffix; the two are
never the same name. -/
theorem matchAux_ne_clozeEnd {base nm nm' : List Char} {m : Nat}
    (h : matchAux base nm = some m) (h' : hasClozeEnd nm' = true) : nm ≠ nm' := by
  intro he
  subst he
  obtain ⟨c, hc, hdig⟩ := matchAux_getLast h
  rw [hasClozeEnd_getLast h'] at hc
  cases hc
  exact absurd hdig (by decide)

theorem unique_base_aux {b1 b2 d1 d2 : List Char}
    (h : b1 ++ d1 = b2 ++ d2) (h2 : hasClozeEnd b2 = true)
    (hd1 : ∀ c ∈ d1, c.isDigit) (hlt : b1.length < b2.length) : False := by
  have htk := congrArg (List.take b2.length) h
  rw [List.take_append_eq_append_take, List.take_append_eq_append_take,
    List.take_of_length_le (le_of_lt hlt), List.take_of_length_le (le_refl _),
    Nat.sub_self, List.take_zero, List.append_nil] at htk
  have hb2 : b2 = b1 ++ List.take (b2.length - b1.length) d1 := htk.symm
  have hulen : (List.take (b2.length - b1.length) d1).length ≠ 0 := by
    have hlen := congrArg List.length hb2
    rw [List.length_append] at hlen
    omega
  have hune : List.take (b2.length - b1.length) d1 ≠ [] := by
    intro hnil
    rw [hnil] at hulen
    exact hulen rfl
  obtain ⟨c, hc⟩ := Option.ne_none_iff_exists'.mp
    (mt List.getLast?_eq_none_iff.mp hune)
  have hlast : b2.getLast? = some c := by
    rw [hb2, List.getLast?_append_of_ne_nil b1 hune, hc]
  rw [hasClozeEnd_getLast h2] at hlast
  have hcu : c ∈ List.take (b2.length - b1.length) d1 :=
    List.mem_of_getLast?_eq_some hc
  have hcd : c.isDigit = true := hd1 _ (List.mem_of_mem_take hcu)
  rw [← Option.some.inj hlast] at hcd
  exact absurd hcd (by decide)

/-- Unique decomposition of an auxiliary field name: a name splits in at most
one way into a marker-suffixed base followed by a nonempty digit run. -/
theorem unique_base {b1 b2 d1 d2 : List Char}
    (h : b1 ++ d1 = b2 ++ d2) (h1 : hasClozeEnd b1 = true) (h2 : hasClozeEnd b2 = true)
    (hd1 : ∀ c ∈ d1, c.isDigit) (hd2 : ∀ c ∈ d2, c.isDigit) :
    b1 = b2 ∧ d1 = d2 := by
  rcases Nat.lt_trichotomy b1.length b2.length with hlt | heq | hgt
  · exact absurd (unique_base_aux h h2 hd1 hlt) not_false
  · exact List.append_inj h heq
  · exact absurd (unique_base_aux h.symm h1 hd2 hgt) not_false

/-- Entries of a field list whose ordinals form a `Nodup` list are determined
by their ordinal. -/
theorem ord_injective {flds : List Fld} (h : (flds.map Fld.ord).Nodup)
    {f g : Fld} (hf : f ∈ flds) (hg : g ∈ flds) (he : f.ord = g.ord) : f = g :=
  List.inj_on_of_nodup_map h hf hg he

/-! ### Scanner facts: the wrap command round-trips through the scanner -/

theorem takeDigits_append {ds : List Char} {x : Char} {r : List Char}
    (hds : ∀ c ∈ ds, c.isDigit) (hx : x.isDigit = false) :
    takeDigits (ds ++ x :: r) = (ds, x :: r) := by
  induction ds with
  | nil => simp [takeDigits, hx]
  | cons c cs ih =>
    have hc : c.isDigit = true := hds c (List.mem_cons_self c cs)
    have ihh := ih fun d hd => hds d (List.mem_cons_of_mem c hd)
    simp [takeDigits, hc, ihh]

theorem matchBody_cons {c : Char} {rest : List Char} (hc : c ≠ '\n') :
    matchBody (c :: rest) =
      if rest.take 2 = [')', ')'] then some (rest.drop 2) else matchBody rest := by
  simp [matchBody, hc]

theorem matchBody_append {p : List Char} (hne : p ≠ [])
    (hnl : ∀ c ∈ p, c ≠ '\n') (r : List Char) :
    ∃ t, matchBody (p ++ ')' :: ')' :: r) = some t := by
  induction p with
  | nil => exact absurd rfl hne
  | cons c cs ih =>
    have hc : c ≠ '\n' := hnl c (List.mem_cons_self c cs)
    rw [List.cons_append, matchBody_cons hc]
    by_cases h2 : (cs ++ ')' :: ')' :: r).take 2 = [')', ')']
    · exact ⟨(cs ++ ')' :: ')' :: r).drop 2, by rw [if_pos h2]⟩
    · have hcs : cs ≠ [] := by
        intro hnil
        subst hnil
        simp at h2
      obtain ⟨t, ht⟩ := ih hcs fun e he => hnl e (List.mem_cons_of_mem c he)
      exact ⟨t, by rw [if_neg h2, ht]⟩

theorem tryMatch_wrap {n : Nat} {p : List Char} (hne : p ≠ [])
    (hnl : ∀ c ∈ p, c ≠ '\n') :
    ∃ t, tryMatch (wrapMarker n p) = some (n, t) := by
  obtain ⟨t, ht⟩ := matchBody_append hne hnl []
  refine ⟨t, ?_⟩
  have hdrop : (wrapMarker n p).drop 3 = natDigits n ++ ':' :: ':' :: (p ++ [')', ')']) :=
    rfl
  have htk : takeDigits ((wrapMarker n p).drop 3) =
      (natDigits n, ':' :: ':' :: (p ++ [')', ')'])) := by
    rw [hdrop]
    exact takeDigits_append (natDigits_isDigit n) (by decide)
  rw [tryMatch, if_pos (by rfl), htk]
  rw [if_pos ⟨natDigits_ne_nil n, rfl⟩]
  have hbody : p ++ [')', ')'] = p ++ ')' :: ')' :: ([] : List Char) := rfl
  rw [show (':' :: ':' :: (p ++ [')', ')'])).drop 2 = p ++ [')', ')'] from rfl,
    hbody, ht, digitsToNat_natDigits]

/-- Scanning the text produced by the wrap command recovers the inserted
identifier, for any nonempty newline-free payload. -/
theorem mem_get_cloze_nums_wrap {n : Nat} {p : List Char} (hne : p ≠ [])
    (hnl : ∀ c ∈ p, c ≠ '\n') : n ∈ get_cloze_nums (wrapMarker n p) := by
  obtain ⟨t, ht⟩ := @tryMatch_wrap n p hne hnl
  have hw : wrapMarker n p =
      '(' :: '(' :: 'c' :: (natDigits n ++ ':' :: ':' :: (p ++ [')', ')'])) := rfl
  rw [get_cloze_nums, findAll, hw]
  rw [show ('(' :: '(' :: 'c' :: (natDigits n ++ ':' :: ':' :: (p ++ [')', ')']))).length
      = (natDigits n ++ ':' :: ':' :: (p ++ [')', ')'])).length + 2 + 1 from by
    simp [List.length_cons]]
  rw [findAllF, ← hw, ht]
  simp

/-! ### Safe-mode reconciliation: structural lemmas about `update_cloze_fields` -/

theorem ucfStep_none {cloze_nums : Finset Nat} {base : List Char}
    {acc : List (Nat × List Char) × Finset Nat × (Nat → List Char)} {f : Fld}
    (hm : matchAux base f.name = none) : ucfStep cloze_nums base acc f = acc := by
  simp [ucfStep, hm]

theorem ucfStep_some {cloze_nums : Finset Nat} {base : List Char}
    {acc : List (Nat × List Char) × Finset Nat × (Nat → List Char)} {f : Fld} {n : Nat}
    (hm : matchAux base f.name = some n) :
    ucfStep cloze_nums base acc f =
      if trimChars (acc.2.2 f.ord) = ['1'] ∨ trimChars (acc.2.2 f.ord) = [] then
        (acc.1 ++ [(f.ord, ucfContent n cloze_nums)], insert n acc.2.1,
          Function.update acc.2.2 f.ord (mungeHTML (ucfContent n cloze_nums)))
      else (acc.1, insert n acc.2.1, acc.2.2) := by
  simp [ucfStep, hm]

theorem ucf_cmds_mono {cloze_nums : Finset Nat} {base : List Char} :
    ∀ (l : List Fld) (acc : List (Nat × List Char) × Finset Nat × (Nat → List Char))
      (c : Nat × List Char), c ∈ acc.1 →
      c ∈ (l.foldl (ucfStep cloze_nums base) acc).1 := by
  intro l
  induction l with
  | nil => exact fun acc c hc => hc
  | cons f l ih =>
    intro acc c hc
    rw [List.foldl_cons]
    refine ih _ c ?_
    cases hm : matchAux base f.name with
    | none => rw [ucfStep_none hm]; exact hc
    | some n =>
      rw [ucfStep_some hm]
      split
      · exact List.mem_append_left _ hc
      · exact hc

theorem ucf_note_preserve {cloze_nums : Finset Nat} {base : List Char} {o : Nat} :
    ∀ (l : List Fld) (acc : List (Nat × List Char) × Finset Nat × (Nat → List Char)),
      (∀ g ∈ l, g.ord ≠ o) →
      (l.foldl (ucfStep cloze_nums base) acc).2.2 o = acc.2.2 o := by
  intro l
  induction l with
  | nil => exact fun acc _ => rfl
  | cons f l ih =>
    intro acc hl
    rw [List.foldl_cons]
    rw [ih _ fun g hg => hl g (List.mem_cons_of_mem f hg)]
    cases hm : matchAux base f.name with
    | none => rw [ucfStep_none hm]
    | some n =>
      rw [ucfStep_some hm]
      split
      · exact Function.update_noteq
          (fun h => hl f (List.mem_cons_self f l) h.symm) _ _
      · rfl

/-- The safe-mode guard in action: a position whose current value strips to
neither the active marker nor the empty string is never written and never
receives a UI command. -/
theorem ucf_protect {cloze_nums : Finset Nat} {base : List Char} {o : Nat} :
    ∀ (l : List Fld) (acc : List (Nat × List Char) × Finset Nat × (Nat → List Char)),
      trimChars (acc.2.2 o) ≠ ['1'] → trimChars (acc.2.2 o) ≠ [] →
      (l.foldl (ucfStep cloze_nums base) acc).2.2 o = acc.2.2 o ∧
        ∀ c ∈ (l.foldl (ucfStep cloze_nums base) acc).1, c.1 = o → c ∈ acc.1 := by
  intro l
  induction l with
  | nil => exact fun acc _ _ => ⟨rfl, fun c hc _ => hc⟩
  | cons f l ih =>
    intro acc h1 h2
    rw [List.foldl_cons]
    cases hm : matchAux base f.name with
    | none =>
      rw [ucfStep_none hm]
      exact ih acc h1 h2
    | some n =>
      rw [ucfStep_some hm]
      by_cases hfo : f.ord = o
      · rw [if_neg (by rw [hfo]; tauto)]
        exact ih (acc.1, insert n acc.2.1, acc.2.2) h1 h2
      · have hne : o ≠ f.ord := fun h => hfo h.symm
        split
        · have hup : (Function.update acc.2.2 f.ord
              (mungeHTML (ucfContent n cloze_nums))) o = acc.2.2 o :=
            Function.update_noteq hne _ _
          obtain ⟨ha, hb⟩ := ih (acc.1 ++ [(f.ord, ucfContent n cloze_nums)],
            insert n acc.2.1,
            Function.update acc.2.2 f.ord (mungeHTML (ucfContent n cloze_nums)))
            (by
              show trimChars ((Function.update acc.2.2 f.ord
                (mungeHTML (ucfContent n cloze_nums))) o) ≠ ['1']
              rw [hup]; exact h1)
            (by
              show trimChars ((Function.update acc.2.2 f.ord
                (mungeHTML (ucfContent n cloze_nums))) o) ≠ []
              rw [hup]; exact h2)
          refine ⟨by rw [ha]; exact hup, fun c hc hco => ?_⟩
          rcases List.mem_append.mp (hb c hc hco) with h | h
          · exact h
          · rw [List.mem_singleton] at h
            rw [h] at hco
            exact absurd hco hfo
        · exact ih (acc.1, insert n acc.2.1, acc.2.2) h1 h2

/-- The found-identifier component collects exactly the successful matches of
the anchored field-name regex over the model's field list. -/
theorem ucf_found {cloze_nums : Finset Nat} {base : List Char} :
    ∀ (l : List Fld) (acc : List (Nat × List Char) × Finset Nat × (Nat → List Char)),
      (l.foldl (ucfStep cloze_nums base) acc).2.1 =
        acc.2.1 ∪ (l.filterMap fun f => matchAux base f.name).toFinset := by
  intro l
  induction l with
  | nil => exact fun acc => by simp
  | cons f l ih =>
    intro acc
    rw [List.foldl_cons]
    cases hm : matchAux base f.name with
    | none =>
      have hfm : (f :: l).filterMap (fun g => matchAux base g.name) =
          l.filterMap fun g => matchAux base g.name := by
        simp [List.filterMap_cons, hm]
      rw [ucfStep_none hm, ih, hfm]
    | some n =>
      have hfm : (f :: l).filterMap (fun g => matchAux base g.name) =
          n :: l.filterMap fun g => matchAux base g.name := by
        simp [List.filterMap_cons, hm]
      rw [ucfStep_some hm, hfm]
      have hins : ∀ (cmds : List (Nat × List Char)) (nt : Nat → List Char),
          (l.foldl (ucfStep cloze_nums base) (cmds, insert n acc.2.1, nt)).2.1 =
            acc.2.1 ∪ (n :: l.filterMap fun g => matchAux base g.name).toFinset := by
        intro cmds nt
        rw [ih]
        dsimp only
        ext x
        simp only [Finset.mem_union, Finset.mem_insert, List.toFinset_cons,
          List.mem_toFinset]
        tauto
      split
      · exact hins _ _
      · exact hins _ _

theorem mungeHTML_one : mungeHTML ['1'] = ['1'] := by decide

/-- The safe-mode guard passes, so the matched auxiliary field is overwritten
and a UI command is emitted, provided ordinals are not duplicated. -/
theorem ucf_overwrites {note : Nat → List Char} {cloze_nums : Finset Nat}
    {base : List Char} {flds : List Fld} {f : Fld} {n : Nat}
    (hnodup : (flds.map Fld.ord).Nodup) (hf : f ∈ flds)
    (hm : matchAux base f.name = some n)
    (hws : trimChars (note f.ord) = ['1'] ∨ trimChars (note f.ord) = []) :
    (update_cloze_fields note cloze_nums base flds).2.2 f.ord =
        mungeHTML (ucfContent n cloze_nums) ∧
      (f.ord, ucfContent n cloze_nums) ∈ (update_cloze_fields note cloze_nums base flds).1 := by
  obtain ⟨l1, l2, heq⟩ := List.append_of_mem hf
  subst heq
  have hmid : (f.ord :: (l1.map Fld.ord ++ l2.map Fld.ord)).Nodup :=
    List.nodup_middle.mp (by simpa using hnodup)
  have hl1 : ∀ g ∈ l1, g.ord ≠ f.ord := by
    intro g hg he
    exact (List.nodup_cons.mp hmid).1
      (by rw [← he]; exact List.mem_append_left _ (List.mem_map_of_mem Fld.ord hg))
  have hl2 : ∀ g ∈ l2, g.ord ≠ f.ord := by
    intro g hg he
    exact (List.nodup_cons.mp hmid).1
      (by rw [← he]; exact List.mem_append_right _ (List.mem_map_of_mem Fld.ord hg))
  rw [update_cloze_fields, List.foldl_append, List.foldl_cons]
  set A := l1.foldl (ucfStep cloze_nums base) ([], ∅, note) with hA
  have hAo : A.2.2 f.ord = note f.ord := ucf_note_preserve l1 _ hl1
  rw [ucfStep_some hm, if_pos (by rw [hAo]; exact hws)]
  constructor
  · rw [ucf_note_preserve l2 _ hl2]
    exact Function.update_same _ _ _
  · exact ucf_cmds_mono l2 _ _ (List.mem_append_right _ (List.mem_singleton_self _))

/-! ### Stripped-value facts for the safe-mode guard -/

theorem trimChars_of_all_ws {l : List Char} (h : ∀ c ∈ l, c.isWhitespace) :
    trimChars l = [] := by
  have hd : l.dropWhile Char.isWhitespace = [] := List.dropWhile_eq_nil_iff.mpr h
  rw [trimChars, hd]
  rfl

theorem trimChars_ws_one_ws {a b : List Char}
    (ha : ∀ c ∈ a, c.isWhitespace) (hb : ∀ c ∈ b, c.isWhitespace) :
    trimChars (a ++ '1' :: b) = ['1'] := by
  have hda : a.dropWhile Char.isWhitespace = [] := List.dropWhile_eq_nil_iff.mpr ha
  have hdb : b.reverse.dropWhile Char.isWhitespace = [] :=
    List.dropWhile_eq_nil_iff.mpr fun c hc => hb c (List.mem_reverse.mp hc)
  rw [trimChars, List.dropWhile_append, hda]
  simp only [List.isEmpty_nil, if_true]
  rw [List.dropWhile_cons_of_neg (by decide), List.reverse_cons,
    List.dropWhile_append, hdb]
  simp

/-! ### Force-mode reconciliation: structural lemmas about `create_missing` -/

theorem cmInnerStep_none {cloze_nums : Finset Nat} {base : List Char}
    {acc : (Nat → List Char) × Bool} {f : Fld}
    (hm : matchAux base f.name = none) : cmInnerStep cloze_nums base acc f = acc := by
  simp [cmInnerStep, hm]

theorem cmInnerStep_some {cloze_nums : Finset Nat} {base : List Char}
    {acc : (Nat → List Char) × Bool} {f : Fld} {n : Nat}
    (hm : matchAux base f.name = some n) :
    cmInnerStep cloze_nums base acc f =
      if acc.1 f.ord = cmContent n cloze_nums then acc
      else (Function.update acc.1 f.ord (cmContent n cloze_nums), true) := by
  simp [cmInnerStep, hm]

/-- Positions not owned by any matched field are untouched by the inner
force-mode pass. -/
theorem cmInner_preserve {cloze_nums : Finset Nat} {base : List Char} {o : Nat} :
    ∀ (l : List Fld) (acc : (Nat → List Char) × Bool),
      (∀ h ∈ l, (matchAux base h.name).isSome → h.ord ≠ o) →
      (l.foldl (cmInnerStep cloze_nums base) acc).1 o = acc.1 o := by
  intro l
  induction l with
  | nil => exact fun acc _ => rfl
  | cons f l ih =>
    intro acc hl
    rw [List.foldl_cons, ih _ fun g hg => hl g (List.mem_cons_of_mem f hg)]
    cases hm : matchAux base f.name with
    | none => rw [cmInnerStep_none hm]
    | some n =>
      rw [cmInnerStep_some hm]
      have hne : f.ord ≠ o := hl f (List.mem_cons_self f l) (by rw [hm]; rfl)
      split
      · rfl
      · exact Function.update_noteq (fun h => hne h.symm) _ _

/-- Once a position holds the desired content, the inner pass keeps it there,
provided every matched field at that position agrees on the desired value. -/
theorem cmInner_stable {cloze_nums : Finset Nat} {base : List Char} {o : Nat} {N : Nat} :
    ∀ (l : List Fld) (acc : (Nat → List Char) × Bool),
      (∀ h ∈ l, h.ord = o → matchAux base h.name = some N) →
      acc.1 o = cmContent N cloze_nums →
      (l.foldl (cmInnerStep cloze_nums base) acc).1 o = cmContent N cloze_nums := by
  intro l
  induction l with
  | nil => exact fun acc _ h => h
  | cons f l ih =>
    intro acc hl hacc
    rw [List.foldl_cons]
    refine ih _ (fun g hg => hl g (List.mem_cons_of_mem f hg)) ?_
    by_cases hfo : f.ord = o
    · have hm : matchAux base f.name = some N := hl f (List.mem_cons_self f l) hfo
      rw [cmInnerStep_some hm]
      split
      · rw [hacc]
      · show (Function.update acc.1 f.ord (cmContent N cloze_nums)) o =
          cmContent N cloze_nums
        rw [hfo, Function.update_same]
    · cases hm : matchAux base f.name with
      | none => rw [cmInnerStep_none hm]; exact hacc
      | some n =>
        rw [cmInnerStep_some hm]
        split
        · exact hacc
        · show (Function.update acc.1 f.ord (cmContent n cloze_nums)) o =
            cmContent N cloze_nums
          rw [Function.update_noteq (fun h => hfo h.symm)]
          exact hacc

/-- The inner force-mode pass drives a matched field's position to exactly the
desired value. -/
theorem cmInner_sets {cloze_nums : Finset Nat} {base : List Char} {N : Nat} {fa : Fld} :
    ∀ (l : List Fld) (acc : (Nat → List Char) × Bool),
      fa ∈ l → matchAux base fa.name = some N →
      (∀ h ∈ l, h.ord = fa.ord → matchAux base h.name = some N) →
      (l.foldl (cmInnerStep cloze_nums base) acc).1 fa.ord = cmContent N cloze_nums := by
  intro l
  induction l with
  | nil => intro acc hfa; cases hfa
  | cons f l ih =>
    intro acc hfa hN hl
    rw [List.foldl_cons]
    by_cases hfo : f.ord = fa.ord
    · have hm : matchAux base f.name = some N := hl f (List.mem_cons_self f l) hfo
      refine cmInner_stable l _ (fun g hg => hl g (List.mem_cons_of_mem f hg)) ?_
      rw [cmInnerStep_some hm]
      split
      · rename_i hcur
        rw [← hfo]
        exact hcur
      · show (Function.update acc.1 f.ord (cmContent N cloze_nums)) fa.ord =
          cmContent N cloze_nums
        rw [← hfo, Function.update_same]
    · have hfa' : fa ∈ l := by
        rcases List.mem_cons.mp hfa with h | h
        · exact absurd (congrArg Fld.ord h.symm) hfo
        · exact h
      exact ih _ hfa' hN fun g hg => hl g (List.mem_cons_of_mem f hg)

/-- When every matched field already holds its desired value, the inner pass
is the identity and raises no updated flag. -/
theorem cmInner_noop {cloze_nums : Finset Nat} {base : List Char} :
    ∀ (l : List Fld) (acc : (Nat → List Char) × Bool),
      (∀ h ∈ l, ∀ m, matchAux base h.name = some m →
        acc.1 h.ord = cmContent m cloze_nums) →
      l.foldl (cmInnerStep cloze_nums base) acc = acc := by
  intro l
  induction l with
  | nil => exact fun acc _ => rfl
  | cons f l ih =>
    intro acc hl
    rw [List.foldl_cons]
    cases hm : matchAux base f.name with
    | none =>
      rw [cmInnerStep_none hm]
      exact ih _ fun g hg => hl g (List.mem_cons_of_mem f hg)
    | some n =>
      rw [cmInnerStep_some hm, if_pos (hl f (List.mem_cons_self f l) n hm)]
      exact ih _ fun g hg => hl g (List.mem_cons_of_mem f hg)

theorem cmOuterStep_cloze {flds : List Fld} {acc : (Nat → List Char) × Nat} {f : Fld}
    (h : hasClozeEnd f.name = true) :
    cmOuterStep flds acc f =
      ((cmReconcile acc.1 (get_cloze_nums (acc.1 f.ord)) f.name flds).1,
        acc.2 + if (cmReconcile acc.1 (get_cloze_nums (acc.1 f.ord)) f.name flds).2
          then 1 else 0) := by
  simp [cmOuterStep, h]

theorem cmOuterStep_not {flds : List Fld} {acc : (Nat → List Char) × Nat} {f : Fld}
    (h : hasClozeEnd f.name = false) : cmOuterStep flds acc f = acc := by
  simp [cmOuterStep, h]

/-- With a duplicate-free ordinal list, a field matched as an auxiliary field
never shares its ordinal with a field obeying the marker-field convention, so
force-mode writes never touch any scanned content. -/
theorem aux_ord_ne {flds : List Fld} (hnodup : (flds.map Fld.ord).Nodup)
    {g h : Fld} (hg : g ∈ flds) (hh : h ∈ flds)
    (hgC : hasClozeEnd g.name = true) {base : List Char} {m : Nat}
    (hm : matchAux base h.name = some m) : h.ord ≠ g.ord := by
  intro he
  have hhg : h = g := ord_injective hnodup hh hg he
  exact matchAux_ne_clozeEnd hm hgC (congrArg Fld.name hhg)

/-- Positions never written by any force-mode pass are untouched by the whole
outer loop of `create_missing`. -/
theorem cmOuter_preserve {flds : List Fld} {o : Nat} :
    ∀ (L : List Fld) (acc : (Nat → List Char) × Nat),
      (∀ g ∈ L, hasClozeEnd g.name = true →
        ∀ h ∈ flds, (matchAux g.name h.name).isSome → h.ord ≠ o) →
      (L.foldl (cmOuterStep flds) acc).1 o = acc.1 o := by
  intro L
  induction L with
  | nil => exact fun acc _ => rfl
  | cons f L ih =>
    intro acc hL
    rw [List.foldl_cons, ih _ fun g hg => hL g (List.mem_cons_of_mem f hg)]
    cases hcz : hasClozeEnd f.name with
    | false => rw [cmOuterStep_not hcz]
    | true =>
      rw [cmOuterStep_cloze hcz]
      exact cmInner_preserve flds _ fun h hh hsome =>
        hL f (List.mem_cons_self f L) hcz h hh hsome

/-- The content of every marker field survives `create_missing` unchanged. -/
theorem create_missing_cloze_fixed {note : Nat → List Char} {flds : List Fld}
    (hnodup : (flds.map Fld.ord).Nodup) {g : Fld} (hg : g ∈ flds)
    (hgC : hasClozeEnd g.name = true) :
    (create_missing_note note flds).1 g.ord = note g.ord := by
  rw [create_missing_note]
  refine cmOuter_preserve flds _ fun g' _ hgC' h hh hsome => ?_
  obtain ⟨m, hm⟩ := Option.isSome_iff_exists.mp hsome
  exact aux_ord_ne hnodup hg hh hgC hm

/-- After `create_missing`, every auxiliary field matched by some marker field
holds exactly the value dictated by the identifiers scanned from that marker
field's original content. -/
theorem create_missing_sets {note : Nat → List Char} {flds : List Fld}
    (hname : (flds.map Fld.name).Nodup) (hord : (flds.map Fld.ord).Nodup)
    {g fa : Fld} (hg : g ∈ flds) (hgC : hasClozeEnd g.name = true)
    (hfa : fa ∈ flds) {m : Nat} (hm : matchAux g.name fa.name = some m) :
    (create_missing_note note flds).1 fa.ord =
      cmContent m (get_cloze_nums (note g.ord)) := by
  obtain ⟨l1, l2, heq⟩ := List.append_of_mem hg
  subst heq
  have hgl2 : g.name ∉ l2.map Fld.name := by
    have hmid : (g.name :: (l1.map Fld.name ++ l2.map Fld.name)).Nodup :=
      List.nodup_middle.mp (by simpa using hname)
    intro hmem
    exact (List.nodup_cons.mp hmid).1 (List.mem_append_right _ hmem)
  rw [create_missing_note, List.foldl_append, List.foldl_cons]
  set A := l1.foldl (cmOuterStep (l1 ++ g :: l2)) (note, 0) with hA
  have hAg : A.1 g.ord = note g.ord := by
    rw [hA]
    refine cmOuter_preserve l1 _ fun g' _ hgC' h hh hsome => ?_
    obtain ⟨m', hm'⟩ := Option.isSome_iff_exists.mp hsome
    exact aux_ord_ne hord hg hh hgC hm'
  rw [cmOuterStep_cloze hgC, hAg]
  have hset : (cmReconcile A.1 (get_cloze_nums (note g.ord)) g.name
      (l1 ++ g :: l2)).1 fa.ord = cmContent m (get_cloze_nums (note g.ord)) := by
    rw [cmReconcile]
    refine cmInner_sets (l1 ++ g :: l2) _ hfa hm fun h hh he => ?_
    rw [ord_injective hord hh hfa he]
    exact hm
  refine Eq.trans ?_ hset
  refine cmOuter_preserve l2 _ fun g' hg' hgC' h hh hsome => ?_
  obtain ⟨m', hm'⟩ := Option.isSome_iff_exists.mp hsome
  intro he
  have hhfa : h = fa := ord_injective hord hh hfa he
  rw [hhfa] at hm'
  obtain ⟨ds', hds', hne', hdig', -⟩ := matchAux_eq_some.mp hm'
  obtain ⟨ds, hds, hne, hdig, -⟩ := matchAux_eq_some.mp hm
  have hbase : g'.name = g.name :=
    (unique_base (by rw [← hds', ← hds]) hgC' hgC hdig' hdig).1
  exact hgl2 (hbase ▸ List.mem_map_of_mem Fld.name hg')

/-- One run of `create_missing` establishes the reconciliation invariant. -/
theorem create_missing_establishes_synced {note : Nat → List Char} {flds : List Fld}
    (hname : (flds.map Fld.name).Nodup) (hord : (flds.map Fld.ord).Nodup) :
    Synced (create_missing_note note flds).1 flds := by
  intro g hg hgC h hh m hm
  rw [create_missing_sets hname hord hg hgC hh hm,
    create_missing_cloze_fixed hord hg hgC]

/-- On an already-synced note, `create_missing` changes nothing and counts
zero updates. -/
theorem create_missing_noop {note : Nat → List Char} {flds : List Fld}
    (hs : Synced note flds) : create_missing_note note flds = (note, 0) := by
  rw [create_missing_note]
  have hgen : ∀ L : List Fld, (∀ g ∈ L, g ∈ flds) →
      ∀ k : Nat, L.foldl (cmOuterStep flds) (note, k) = (note, k) := by
    intro L
    induction L with
    | nil => exact fun _ _ => rfl
    | cons f L ih =>
      intro hL k
      rw [List.foldl_cons]
      cases hcz : hasClozeEnd f.name with
      | false =>
        rw [cmOuterStep_not hcz]
        exact ih (fun g hg => hL g (List.mem_cons_of_mem f hg)) k
      | true =>
        have hrec : cmReconcile note (get_cloze_nums (note f.ord)) f.name flds =
            (note, false) := by
          rw [cmReconcile]
          exact cmInner_noop flds _ fun h hh m hm =>
            hs f (hL f (List.mem_cons_self f L)) hcz h hh m hm
        rw [cmOuterStep_cloze hcz]
        show (L.foldl (cmOuterStep flds)
          ((cmReconcile note (get_cloze_nums (note f.ord)) f.name flds).1,
            k + if (cmReconcile note (get_cloze_nums (note f.ord)) f.name flds).2
              then 1 else 0)) = (note, k)
        rw [hrec]
        show L.foldl (cmOuterStep flds) (note, k + 0) = (note, k)
        rw [Nat.add_zero]
        exact ih (fun g hg => hL g (List.mem_cons_of_mem f hg)) k
  exact hgen flds (fun g hg => hg) 0

/-! ### The claims -/

/-- C1: after the create-missing (force-mode) reconciliation of a record, each
auxiliary field named `<Base>Cloze<N>` present in the schema holds the active
marker `"1"` exactly when `N` is in the identifier set scanned from the
`<Base>Cloze` field's content, and the empty string otherwise — for every
record and content, and every schema whose field names and ordinals are
duplicate-free (as the host guarantees for a note model). -/
theorem create_missing_reconciles_aux_fields
    (note : Nat → List Char) (flds : List Fld) (B : List Char) (N : Nat)
    (fb fa : Fld)
    (hname : (flds.map Fld.name).Nodup) (hord : (flds.map Fld.ord).Nodup)
    (hfb : fb ∈ flds) (hfbn : fb.name = B ++ clozeChars)
    (hfa : fa ∈ flds) (hfan : fa.name = B ++ clozeChars ++ natDigits N) :
    (create_missing_note note flds).1 fa.ord =
      if N ∈ get_cloze_nums (note fb.ord) then ['1'] else [] := by
  have hgC : hasClozeEnd fb.name = true := hasClozeEnd_iff.mpr ⟨B, hfbn⟩
  have hm : matchAux fb.name fa.name = some N := by
    rw [hfbn, hfan]
    exact matchAux_canonical (B ++ clozeChars) N
  rw [create_missing_sets hname hord hfb hgC hfa hm, cmContent]

/-- Witness for C1 on the end-to-end spec scenario: `ExpressionCloze` holds
`((c1::foo))`, so `ExpressionCloze1` becomes active and `ExpressionCloze2`
becomes empty. -/
theorem create_missing_reconciles_aux_fields_witness :
    (create_missing_note
      (fun o => if o = 0 then "((c1::foo))".toList else [])
      [⟨"ExpressionCloze".toList, 0⟩, ⟨"ExpressionCloze1".toList, 1⟩,
        ⟨"ExpressionCloze2".toList, 2⟩]).1 1 = ['1'] ∧
    (create_missing_note
      (fun o => if o = 0 then "((c1::foo))".toList else [])
      [⟨"ExpressionCloze".toList, 0⟩, ⟨"ExpressionCloze1".toList, 1⟩,
        ⟨"ExpressionCloze2".toList, 2⟩]).1 2 = [] := by
  constructor
  · exact (create_missing_reconciles_aux_fields _ _ "Expression".toList 1
      ⟨"ExpressionCloze".toList, 0⟩ ⟨"ExpressionCloze1".toList, 1⟩
      (by decide) (by decide) (by decide) (by decide) (by decide) (by decide)).trans
      (by decide)
  · exact (create_missing_reconciles_aux_fields _ _ "Expression".toList 2
      ⟨"ExpressionCloze".toList, 0⟩ ⟨"ExpressionCloze2".toList, 2⟩
      (by decide) (by decide) (by decide) (by decide) (by decide) (by decide)).trans
      (by decide)

/-- C2: safe-mode reconciliation never overwrites manually authored content —
an auxiliary position whose current value is neither the active marker nor
empty (after stripping, as the guard compares) is left unchanged and receives
no update command, regardless of the desired values. -/
theorem safe_mode_protects_manual
    (note : Nat → List Char) (cloze_nums : Finset Nat) (base : List Char)
    (flds : List Fld) (o : Nat)
    (h1 : trimChars (note o) ≠ ['1']) (h2 : trimChars (note o) ≠ []) :
    (update_cloze_fields note cloze_nums base flds).2.2 o = note o ∧
      ∀ c ∈ (update_cloze_fields note cloze_nums base flds).1, c.1 ≠ o := by
  obtain ⟨ha, hb⟩ := @ucf_protect cloze_nums base o flds ([], ∅, note) h1 h2
  exact ⟨ha, fun c hc hco => absurd (hb c hc hco) (List.not_mem_nil c)⟩

/-- Witness for C2: a field holding `"custom text"` survives a safe-mode run
untouched and triggers no command. -/
theorem safe_mode_protects_manual_witness :
    (update_cloze_fields (fun _ => "custom text".toList) {1} "Field".toList
        [⟨"Field1".toList, 0⟩]).2.2 0 = "custom text".toList ∧
      ∀ c ∈ (update_cloze_fields (fun _ => "custom text".toList) {1}
        "Field".toList [⟨"Field1".toList, 0⟩]).1, c.1 ≠ 0 :=
  safe_mode_protects_manual _ {1} _ _ 0 (by decide) (by decide)

/-- C3: the scanner returns the de-duplicated identifier set of all marker
spans and the empty set when nothing matches. -/
theorem scanner_example_behaviour :
    get_cloze_nums "((c1::I)) ((c2::am)) hungry.".toList = {1, 2} ∧
      get_cloze_nums "no markers here".toList = ∅ ∧
      get_cloze_nums "((c1::a)) ((c1::b))".toList = {1} := by
  refine ⟨by decide, by decide, by decide⟩

/-- C4, counterexample: the regex payload is `.+?` — one or more characters —
so the empty-payload marker `((c1::))` is not matched and its identifier is
not scanned, contrary to the claim that `scan("((c1::))")` yields `{1}`. -/
theorem scanner_drops_empty_payload :
    1 ∉ get_cloze_nums "((c1::))".toList := by decide

/-- C4, amended: wrap-then-scan round-trips for every identifier and every
nonempty newline-free payload; the empty payload does not round-trip because
the regex body requires at least one character. -/
theorem wrap_scan_roundtrip (n : Nat) (p : List Char) (hne : p ≠ [])
    (hnl : ∀ c ∈ p, c ≠ '\n') : n ∈ get_cloze_nums (wrapMarker n p) :=
  mem_get_cloze_nums_wrap hne hnl

/-- Witness for C4's amended round-trip at identifier 1 and payload `I`. -/
theorem wrap_scan_roundtrip_witness :
    1 ∈ get_cloze_nums (wrapMarker 1 ['I']) :=
  wrap_scan_roundtrip 1 ['I'] (by decide) (by decide)

/-- C5: the insert-marker entry point proposes `max(S)+1` without the reuse
modifier, `max(S)` with it, and `1` when the scanned set is empty, regardless
of the modifier. -/
theorem next_cloze_num_policy (s : Finset Nat) (r : Bool) :
    (∀ h : s.Nonempty,
        next_cloze_num s false = s.max' h + 1 ∧ next_cloze_num s true = s.max' h) ∧
      (s = ∅ → next_cloze_num s r = 1) := by
  constructor
  · intro h
    constructor
    · rw [next_cloze_num, dif_pos h, if_neg (by simp)]
    · rw [next_cloze_num, dif_pos h, if_pos rfl]
  · intro h
    subst h
    rw [next_cloze_num, dif_neg (by simp)]

/-- Witness for C5 on the spec's own example set. -/
theorem next_cloze_num_policy_witness :
    next_cloze_num {1, 3} false = 4 ∧ next_cloze_num {1, 3} true = 3 ∧
      next_cloze_num (∅ : Finset Nat) false = 1 := by
  have hne : ({1, 3} : Finset Nat).Nonempty := ⟨1, by decide⟩
  have hmax : ({1, 3} : Finset Nat).max' hne = 3 := by
    apply le_antisymm
    · exact Finset.max'_le _ hne _ (by decide)
    · exact Finset.le_max' _ 3 (by decide)
  refine ⟨?_, ?_, (next_cloze_num_policy ∅ false).2 rfl⟩
  · rw [((next_cloze_num_policy {1, 3} false).1 hne).1, hmax]
  · rw [((next_cloze_num_policy {1, 3} false).1 hne).2, hmax]

/-- C6: force-mode reconciliation is idempotent — a second `create_missing`
pass over an already-reconciled note emits no updates and leaves the note
unchanged, for every duplicate-free schema. -/
theorem create_missing_idempotent (note : Nat → List Char) (flds : List Fld)
    (hname : (flds.map Fld.name).Nodup) (hord : (flds.map Fld.ord).Nodup) :
    create_missing_note (create_missing_note note flds).1 flds =
      ((create_missing_note note flds).1, 0) :=
  create_missing_noop (create_missing_establishes_synced hname hord)

/-- Witness for C6 on the end-to-end scenario note. -/
theorem create_missing_idempotent_witness :
    create_missing_note
        (create_missing_note (fun o => if o = 0 then "((c1::foo))".toList else [])
          [⟨"ExpressionCloze".toList, 0⟩, ⟨"ExpressionCloze1".toList, 1⟩,
            ⟨"ExpressionCloze2".toList, 2⟩]).1
        [⟨"ExpressionCloze".toList, 0⟩, ⟨"ExpressionCloze1".toList, 1⟩,
          ⟨"ExpressionCloze2".toList, 2⟩] =
      ((create_missing_note (fun o => if o = 0 then "((c1::foo))".toList else [])
        [⟨"ExpressionCloze".toList, 0⟩, ⟨"ExpressionCloze1".toList, 1⟩,
          ⟨"ExpressionCloze2".toList, 2⟩]).1, 0) :=
  create_missing_idempotent _ _ (by decide) (by decide)

/-- C7: the found-identifier set is exactly the set of successful matches of
the anchored base-plus-digits name pattern over the schema (exact prefix, not
substring), and on the spec's example — identifiers `{1,2,3}` against a schema
with only `Field1` and `Field2` (plus non-matching distractors) — the found
set is `{1,2}` and the missing report is the single name `Field3`. -/
theorem found_identifiers_exact :
    (∀ (note : Nat → List Char) (cloze_nums : Finset Nat) (base : List Char)
        (flds : List Fld),
      (update_cloze_fields note cloze_nums base flds).2.1 =
        (flds.filterMap fun f => matchAux base f.name).toFinset) ∧
      (update_cloze_fields (fun _ => []) {1, 2, 3} "Field".toList
        [⟨"Field1".toList, 0⟩, ⟨"Field2".toList, 1⟩, ⟨"XField1".toList, 2⟩,
          ⟨"Field".toList, 3⟩, ⟨"Field2X".toList, 4⟩]).2.1 = {1, 2} ∧
      missing_field_names {1, 2, 3}
        (update_cloze_fields (fun _ => []) {1, 2, 3} "Field".toList
          [⟨"Field1".toList, 0⟩, ⟨"Field2".toList, 1⟩, ⟨"XField1".toList, 2⟩,
            ⟨"Field".toList, 3⟩, ⟨"Field2X".toList, 4⟩]).2.1
        "Field".toList = ["Field3".toList] := by
  refine ⟨fun note cloze_nums base flds => ?_, by decide, ?_⟩
  · rw [update_cloze_fields, ucf_found]
    show ∅ ∪ _ = _
    rw [Finset.empty_union]
  · rw [show (update_cloze_fields (fun _ => []) {1, 2, 3} "Field".toList
        [⟨"Field1".toList, 0⟩, ⟨"Field2".toList, 1⟩, ⟨"XField1".toList, 2⟩,
          ⟨"Field".toList, 3⟩, ⟨"Field2X".toList, 4⟩]).2.1 = {1, 2} from by decide]
    rw [missing_field_names,
      show ({1, 2, 3} : Finset Nat) \ {1, 2} = {3} from by decide,
      Finset.sort_singleton]
    decide

/-- C8: the live text-change wrapper invokes the host's original handler in
every case, and any failure of its fallible body is swallowed: a failing body
yields no commands and leaves the note untouched. -/
theorem bridge_failures_swallowed (hasNote : Bool) (noteId : Int)
    (note : Nat → List Char) (flds : List Fld) (cmd : List Char) :
    (onBridgeCmd_model hasNote noteId note flds cmd).2 = true ∧
      (bridge_body hasNote noteId note flds cmd = Except.error () →
        (onBridgeCmd_model hasNote noteId note flds cmd).1 = ([], note)) := by
  refine ⟨rfl, fun h => ?_⟩
  rw [onBridgeCmd_model]
  show (match bridge_body hasNote noteId note flds cmd with
    | Except.ok r => r
    | Except.error _ => ([], note)) = ([], note)
  rw [h]

/-- Witness for C8: a malformed event (`blur:xx` has too few tokens, so the
unpacking raises) is swallowed and the original handler still runs. -/
theorem bridge_failures_swallowed_witness :
    (onBridgeCmd_model true 5 (fun _ => []) [] "blur:xx".toList).2 = true ∧
      (onBridgeCmd_model true 5 (fun _ => []) [] "blur:xx".toList).1 =
        ([], fun _ => []) :=
  ⟨(bridge_failures_swallowed true 5 (fun _ => []) [] "blur:xx".toList).1,
    (bridge_failures_swallowed true 5 (fun _ => []) [] "blur:xx".toList).2 rfl⟩

/-- C9: the reported `update_count` increments once per reconciled
Cloze-suffixed field, not once per record: a single selected note with two
marker fields needing updates reports 2 while exactly 1 record changed and
was persisted. -/
theorem update_count_counts_fields :
    create_missing_batch
        [((fun o => if o = 0 then "((c1::x))".toList
            else if o = 2 then "((c1::y))".toList else []),
          [⟨"ACloze".toList, 0⟩, ⟨"ACloze1".toList, 1⟩,
            ⟨"BCloze".toList, 2⟩, ⟨"BCloze1".toList, 3⟩])] = 2 ∧
      changed_note_count
        [((fun o => if o = 0 then "((c1::x))".toList
            else if o = 2 then "((c1::y))".toList else []),
          [⟨"ACloze".toList, 0⟩, ⟨"ACloze1".toList, 1⟩,
            ⟨"BCloze".toList, 2⟩, ⟨"BCloze1".toList, 3⟩])] = 1 := by
  exact ⟨by decide, by decide⟩

/-- C10: the safe-mode guard strips whitespace and compares against exactly
the active marker and the empty string, so a value that is all whitespace, or
the marker surrounded by whitespace, is treated as automatically managed and
overwritten (with a UI command emitted). -/
theorem whitespace_fields_overwritten
    (note : Nat → List Char) (cloze_nums : Finset Nat) (base : List Char)
    (flds : List Fld) (f : Fld) (n : Nat)
    (hord : (flds.map Fld.ord).Nodup) (hf : f ∈ flds)
    (hm : matchAux base f.name = some n)
    (hws : (∀ c ∈ note f.ord, c.isWhitespace) ∨
      ∃ a b, note f.ord = a ++ '1' :: b ∧ (∀ c ∈ a, c.isWhitespace) ∧
        ∀ c ∈ b, c.isWhitespace) :
    (update_cloze_fields note cloze_nums base flds).2.2 f.ord =
        mungeHTML (ucfContent n cloze_nums) ∧
      (f.ord, ucfContent n cloze_nums) ∈
        (update_cloze_fields note cloze_nums base flds).1 := by
  refine ucf_overwrites hord hf hm ?_
  rcases hws with h | ⟨a, b, hab, ha, hb⟩
  · exact Or.inr (trimChars_of_all_ws h)
  · exact Or.inl (by rw [hab]; exact trimChars_ws_one_ws ha hb)

/-- Witness for C10: the value `" 1 "` is overwritten even though it is not
literally the active marker. -/
theorem whitespace_fields_overwritten_witness :
    (update_cloze_fields (fun _ => " 1 ".toList) (∅ : Finset Nat) "Field".toList
        [⟨"Field1".toList, 0⟩]).2.2 0 = mungeHTML (ucfContent 1 ∅) ∧
      (0, ucfContent 1 ∅) ∈ (update_cloze_fields (fun _ => " 1 ".toList)
        (∅ : Finset Nat) "Field".toList [⟨"Field1".toList, 0⟩]).1 :=
  whitespace_fields_overwritten _ ∅ _ _ ⟨"Field1".toList, 0⟩ 1
    (by decide) (by decide) (by decide)
    (Or.inr ⟨[' '], [' '], by decide, by decide, by decide⟩)

end ClozeAnything
